import Mathlib

/-
Verification development for the txt_to_epub paragraph/chapter inference
engine (src/txt_to_epub.py).  Lines and strings are modelled as `List Char`;
a paragraph is modelled by its textual content (the string placed between
the constant markup `<p>` and `</p>` in the source, see `renderPara`).
-/

namespace TxtToEpub

/-- The set of characters that the Python functions `str.strip()` and
`str.isspace()` treat as whitespace (Unicode whitespace, including U+3000
IDEOGRAPHIC SPACE `　`).  The source relies on `line.strip()` throughout. -/
def pyIsSpace (c : Char) : Bool :=
  decide ((9 ≤ c.toNat ∧ c.toNat ≤ 13) ∨ (28 ≤ c.toNat ∧ c.toNat ≤ 31) ∨
    c.toNat = 32 ∨ c.toNat = 133 ∨ c.toNat = 160 ∨ c.toNat = 5760 ∨
    (8192 ≤ c.toNat ∧ c.toNat ≤ 8202) ∨ c.toNat = 8232 ∨ c.toNat = 8233 ∨
    c.toNat = 8239 ∨ c.toNat = 8287 ∨ c.toNat = 12288)

/-- Python `s.strip()`: remove leading and trailing whitespace. -/
def strip (l : List Char) : List Char :=
  ((l.dropWhile pyIsSpace).reverse.dropWhile pyIsSpace).reverse

/-- Embeds `has_indent` (src/txt_to_epub.py:145-155): the line starts with
a full-width space, with two ordinary spaces, or with a tab. -/
def has_indent : List Char → Bool
  | [] => false
  | [c] => c == '　' || c == '\t'
  | c₁ :: c₂ :: _ => c₁ == '　' || (c₁ == ' ' && c₂ == ' ') || c₁ == '\t'

/-- Embeds `remove_indent` (src/txt_to_epub.py:158-166): `lstrip("　")`
then `lstrip(" \t")`.  (The early return of the source for the empty line
is subsumed: both `dropWhile`s map `[]` to `[]`.) -/
def remove_indent (l : List Char) : List Char :=
  (l.dropWhile (fun c => c == '　')).dropWhile (fun c => c == ' ' || c == '\t')

/-- Embeds `indent_str` (src/txt_to_epub.py:174): two full-width spaces
when `add_indent` is enabled, otherwise empty. -/
def indentStr (add_indent : Bool) : List Char :=
  if add_indent then ['　', '　'] else []

/-- The sentence-terminator set (src/txt_to_epub.py:278): Chinese and
Western full stops, question marks, exclamation marks, closing quotes and
brackets; `Char.ofNat 39` is the ASCII apostrophe. -/
def endChars : List Char :=
  ['。', '！', '？', '.', '!', '?', '"', Char.ofNat 39, '」', '》', ')', '）']

/-- Embeds `line and line[-1] in endChars` (src/txt_to_epub.py:278). -/
def endsWithTerm (l : List Char) : Bool :=
  match l.getLast? with
  | some c => endChars.contains c
  | none => false

/-- Branch `mode == "line"` (src/txt_to_epub.py:176-191): each non-blank
line is one paragraph; an indented line has its indentation removed first. -/
def processLineMode (ind : List Char) : List (List Char) → List (List Char)
  | [] => []
  | line :: rest =>
    if (strip line).isEmpty then processLineMode ind rest
    else if has_indent line then
      (ind ++ strip (remove_indent line)) :: processLineMode ind rest
    else (ind ++ strip line) :: processLineMode ind rest

/-- Branch `mode == "blank"` (src/txt_to_epub.py:193-223): lines accumulate
into `current_para`; a blank line flushes the buffer; an indented line met
with a non-empty buffer flushes it and starts a new buffer with the
indentation stripped; the final buffer is flushed at the end. -/
def processBlankAux (ind : List Char) (cur : List (List Char)) :
    List (List Char) → List (List Char)
  | [] => if cur.isEmpty then [] else [ind ++ cur.flatten]
  | line :: rest =>
    if (strip line).isEmpty then
      if cur.isEmpty then processBlankAux ind cur rest
      else (ind ++ cur.flatten) :: processBlankAux ind [] rest
    else if has_indent line && !cur.isEmpty then
      (ind ++ cur.flatten) :: processBlankAux ind [strip (remove_indent line)] rest
    else if has_indent line then
      processBlankAux ind (cur ++ [strip (remove_indent line)]) rest
    else processBlankAux ind (cur ++ [strip line]) rest

/-- The indentation branch of `mode == "smart"` (src/txt_to_epub.py:233-263):
a blank line flushes a non-empty buffer; an indented line flushes a
non-empty buffer and then starts a new one with the indentation stripped;
other lines join the current buffer. -/
def processSmartIndentAux (ind : List Char) (cur : List (List Char)) :
    List (List Char) → List (List Char)
  | [] => if cur.isEmpty then [] else [ind ++ cur.flatten]
  | line :: rest =>
    if (strip line).isEmpty then
      if cur.isEmpty then processSmartIndentAux ind cur rest
      else (ind ++ cur.flatten) :: processSmartIndentAux ind [] rest
    else if has_indent line then
      if cur.isEmpty then
        processSmartIndentAux ind [strip (remove_indent line)] rest
      else
        (ind ++ cur.flatten) :: processSmartIndentAux ind [strip (remove_indent line)] rest
    else processSmartIndentAux ind (cur ++ [strip line]) rest

/-- The punctuation fallback of `mode == "smart"` (src/txt_to_epub.py:268-289):
trimmed lines join a running buffer, which is flushed right after a line
whose last character is a sentence terminator; the final buffer is flushed
at the end. -/
def processPunctAux (ind : List Char) (cur : List (List Char)) :
    List (List Char) → List (List Char)
  | [] => if cur.isEmpty then [] else [ind ++ cur.flatten]
  | line :: rest =>
    if (strip line).isEmpty then processPunctAux ind cur rest
    else if endsWithTerm (strip line) then
      (ind ++ (cur ++ [strip line]).flatten) :: processPunctAux ind [] rest
    else processPunctAux ind (cur ++ [strip line]) rest

/-- Embeds `any(has_indent(line) for line in text_lines if line.strip())`
(src/txt_to_epub.py:228-230). -/
def hasIndentedLines (ls : List (List Char)) : Bool :=
  ls.any (fun l => !(strip l).isEmpty && has_indent l)

/-- Embeds `any(not line.strip() for line in text_lines)`
(src/txt_to_epub.py:231). -/
def hasBlankLines (ls : List (List Char)) : Bool :=
  ls.any (fun l => (strip l).isEmpty)

/-- Embeds `process_paragraphs` (src/txt_to_epub.py:169-291), at the level of the
textual content of each emitted paragraph (the source wraps every entry in
the constant markup `<p>…</p>`, see `renderPara`).  `mode == "smart"`
decides once per chapter, in priority order: indentation present →
indentation buffering; blank lines present → delegate to `blank`;
otherwise punctuation fallback.  Any other mode string leaves the paragraph
list empty. -/
def process_paragraphs (text_lines : List (List Char)) (mode : String)
    (add_indent : Bool) : List (List Char) :=
  if mode = "line" then processLineMode (indentStr add_indent) text_lines
  else if mode = "blank" then processBlankAux (indentStr add_indent) [] text_lines
  else if mode = "smart" then
    if hasIndentedLines text_lines then
      processSmartIndentAux (indentStr add_indent) [] text_lines
    else if hasBlankLines text_lines then
      processBlankAux (indentStr add_indent) [] text_lines
    else processPunctAux (indentStr add_indent) [] text_lines
  else []

/-- The constant markup the source puts around the content of each paragraph:
`f"<p>{indent_str}{content}</p>"`. -/
def renderPara (p : List Char) : List Char :=
  "<p>".data ++ p ++ "</p>".data

/-- Embeds `process_paragraphs` as the source literally returns it: each content
string wrapped in `<p>…</p>`. -/
def process_paragraphs_html (text_lines : List (List Char)) (mode : String)
    (add_indent : Bool) : List (List Char) :=
  (process_paragraphs text_lines mode add_indent).map renderPara

/-- Finalising one chapter (src/txt_to_epub.py:306-311 and 320-325): an
empty line buffer, or a buffer whose segmentation yields no paragraphs,
contributes no chapter.  (The source joins the paragraph markup with a
newline for the HTML body; the model keeps the paragraph list.) -/
def flushChapter (mode : String) (fi : Bool) (title : List Char)
    (buf : List (List Char)) : List (List Char × List (List Char)) :=
  if buf.isEmpty then []
  else if (process_paragraphs buf mode fi).isEmpty then []
  else [(title, process_paragraphs buf mode fi)]

/-- The chapter-splitting loop of `txt_to_epub` (src/txt_to_epub.py:296-325):
a blank input line is kept as an empty placeholder line; a trimmed line
matching the heading pattern `m` finalises the current chapter and starts a
new one titled with the trimmed heading; any other line joins the buffer. -/
def splitChaptersAux (m : List Char → Bool) (mode : String) (fi : Bool)
    (title : List Char) (buf : List (List Char)) :
    List (List Char) → List (List Char × List (List Char))
  | [] => flushChapter mode fi title buf
  | line :: rest =>
    if (strip line).isEmpty then
      splitChaptersAux m mode fi title (buf ++ [[]]) rest
    else if m (strip line) then
      flushChapter mode fi title buf ++ splitChaptersAux m mode fi (strip line) [] rest
    else splitChaptersAux m mode fi title (buf ++ [line]) rest

/-- Chapter construction of `txt_to_epub` (src/txt_to_epub.py:140-142 and
296-325): the heading pattern is abstracted as a predicate `m` on the
trimmed line (the source uses `re.compile(chapter_pattern).match`); the
initial title is the fixed preface label `前言`. -/
def txt_to_epub_chapters (m : List Char → Bool) (mode : String) (fi : Bool)
    (lines : List (List Char)) : List (List Char × List (List Char)) :=
  splitChaptersAux m mode fi "前言".data [] lines

/-- A line is a heading for the splitter when it is non-blank and its
trimmed form matches the pattern (blank lines are consumed before the
pattern test, src/txt_to_epub.py:298-303). -/
def isHeading (m : List Char → Bool) (l : List Char) : Bool :=
  !(strip l).isEmpty && m (strip l)

/-! ### Whitespace-erasure helpers

`nonSpace l` is the subsequence of non-whitespace characters of `l`; every
normalisation the engine performs (`strip`, `remove_indent`, dropping blank
lines, the forced indent marker) erases to the identity under `nonSpace`. -/

/-- The non-whitespace characters of a string, in order. -/
def nonSpace (l : List Char) : List Char :=
  l.filter (fun c => !pyIsSpace c)

@[simp] theorem nonSpace_nil : nonSpace ([] : List Char) = [] := rfl

theorem nonSpace_append (a b : List Char) :
    nonSpace (a ++ b) = nonSpace a ++ nonSpace b :=
  List.filter_append ..

theorem nonSpace_dropWhile (q : Char → Bool)
    (hq : ∀ c, q c = true → pyIsSpace c = true) (l : List Char) :
    nonSpace (l.dropWhile q) = nonSpace l := by
  induction l with
  | nil => rfl
  | cons c cs ih =>
    by_cases h : q c = true
    · have hs : pyIsSpace c = true := hq c h
      have h1 : (c :: cs).dropWhile q = cs.dropWhile q := by
        simp [List.dropWhile, h]
      rw [h1, ih]
      simp [nonSpace, List.filter_cons, hs]
    · simp [List.dropWhile, h]

theorem nonSpace_reverse (l : List Char) :
    nonSpace l.reverse = (nonSpace l).reverse :=
  List.filter_reverse ..

theorem nonSpace_strip (l : List Char) : nonSpace (strip l) = nonSpace l := by
  unfold strip
  rw [nonSpace_reverse, nonSpace_dropWhile pyIsSpace (fun _ h => h),
    nonSpace_reverse, List.reverse_reverse,
    nonSpace_dropWhile pyIsSpace (fun _ h => h)]

theorem fullwidth_space_isSpace : pyIsSpace '　' = true := by decide

theorem nonSpace_remove_indent (l : List Char) :
    nonSpace (remove_indent l) = nonSpace l := by
  unfold remove_indent
  rw [nonSpace_dropWhile _ (fun c h => by
        have : c = ' ' ∨ c = '\t' := by
          rcases Bool.or_eq_true_iff.mp h with h1 | h1
          · exact Or.inl (by exact_mod_cast of_decide_eq_true h1)
          · exact Or.inr (by exact_mod_cast of_decide_eq_true h1)
        rcases this with rfl | rfl <;> decide),
      nonSpace_dropWhile _ (fun c h => by
        have : c = '　' := by exact_mod_cast of_decide_eq_true h
        subst this; decide)]

theorem nonSpace_of_strip_eq_nil {l : List Char} (h : strip l = []) :
    nonSpace l = [] := by
  rw [← nonSpace_strip, h]; rfl

theorem nonSpace_indentStr (fi : Bool) : nonSpace (indentStr fi) = [] := by
  cases fi <;> decide

theorem dropWhile_dropWhile (p q : α → Bool)
    (hq : ∀ c, q c = true → p c = true) (l : List α) :
    (l.dropWhile q).dropWhile p = l.dropWhile p := by
  induction l with
  | nil => rfl
  | cons c cs ih =>
    by_cases h : q c = true
    · simp [List.dropWhile, h, hq c h, ih]
    · simp [List.dropWhile, h]

theorem strip_remove_indent (l : List Char) :
    strip (remove_indent l) = strip l := by
  unfold strip remove_indent
  rw [dropWhile_dropWhile _ _ (fun c h => by
        have : c = ' ' ∨ c = '\t' := by
          rcases Bool.or_eq_true_iff.mp h with h1 | h1
          · exact Or.inl (by exact_mod_cast of_decide_eq_true h1)
          · exact Or.inr (by exact_mod_cast of_decide_eq_true h1)
        rcases this with rfl | rfl <;> decide),
      dropWhile_dropWhile _ _ (fun c h => by
        have : c = '　' := by exact_mod_cast of_decide_eq_true h
        subst this; decide)]

/-! ### Unfolding equations for `process_paragraphs` -/

theorem process_paragraphs_line_def (ls : List (List Char)) (fi : Bool) :
    process_paragraphs ls "line" fi = processLineMode (indentStr fi) ls := rfl

theorem process_paragraphs_blank_def (ls : List (List Char)) (fi : Bool) :
    process_paragraphs ls "blank" fi = processBlankAux (indentStr fi) [] ls := rfl

theorem process_paragraphs_smart_def (ls : List (List Char)) (fi : Bool) :
    process_paragraphs ls "smart" fi =
      if hasIndentedLines ls then processSmartIndentAux (indentStr fi) [] ls
      else if hasBlankLines ls then processBlankAux (indentStr fi) [] ls
      else processPunctAux (indentStr fi) [] ls := rfl

theorem process_paragraphs_other_def (ls : List (List Char)) (mode : String)
    (fi : Bool) (h1 : mode ≠ "line") (h2 : mode ≠ "blank") (h3 : mode ≠ "smart") :
    process_paragraphs ls mode fi = [] := by
  unfold process_paragraphs
  simp [h1, h2, h3]

/-! ### Character preservation, mode by mode -/

theorem lineMode_chars (ind : List Char) (hind : nonSpace ind = [])
    (ls : List (List Char)) :
    nonSpace (processLineMode ind ls).flatten = nonSpace ls.flatten := by
  induction ls with
  | nil => rfl
  | cons line rest ih =>
    by_cases hb : (strip line).isEmpty = true
    · have h0 : nonSpace line = [] :=
        nonSpace_of_strip_eq_nil (List.isEmpty_iff.mp hb)
      simp [processLineMode, hb, ih, nonSpace_append, h0]
    · by_cases hi : has_indent line = true
      · simp [processLineMode, hb, hi, nonSpace_append, hind,
          nonSpace_strip, nonSpace_remove_indent, ih]
      · simp [processLineMode, hb, hi, nonSpace_append, hind,
          nonSpace_strip, ih]

theorem blankAux_chars (ind : List Char) (hind : nonSpace ind = []) :
    ∀ (ls cur : List (List Char)),
    nonSpace (processBlankAux ind cur ls).flatten =
      nonSpace cur.flatten ++ nonSpace ls.flatten := by
  intro ls
  induction ls with
  | nil =>
    intro cur
    by_cases hc : cur.isEmpty = true
    · have h0 : cur = [] := List.isEmpty_iff.mp hc
      subst h0; simp [processBlankAux]
    · simp [processBlankAux, hc, nonSpace_append, hind]
  | cons line rest ih =>
    intro cur
    by_cases hb : (strip line).isEmpty = true
    · have h0 : nonSpace line = [] :=
        nonSpace_of_strip_eq_nil (List.isEmpty_iff.mp hb)
      by_cases hc : cur.isEmpty = true
      · have h1 : cur = [] := List.isEmpty_iff.mp hc
        subst h1
        simp [processBlankAux, hb, ih, nonSpace_append, h0]
      · simp [processBlankAux, hb, hc, ih, nonSpace_append, h0, hind]
    · by_cases hi : has_indent line = true
      · by_cases hc : cur.isEmpty = true
        · simp [processBlankAux, hb, hi, hc, ih, nonSpace_append,
            nonSpace_strip, nonSpace_remove_indent, hind]
        · simp [processBlankAux, hb, hi, hc, ih, nonSpace_append,
            nonSpace_strip, nonSpace_remove_indent, hind]
      · simp [processBlankAux, hb, hi, ih, nonSpace_append,
          nonSpace_strip, hind]

theorem punctAux_chars (ind : List Char) (hind : nonSpace ind = []) :
    ∀ (ls cur : List (List Char)),
    nonSpace (processPunctAux ind cur ls).flatten =
      nonSpace cur.flatten ++ nonSpace ls.flatten := by
  intro ls
  induction ls with
  | nil =>
    intro cur
    by_cases hc : cur.isEmpty = true
    · have h0 : cur = [] := List.isEmpty_iff.mp hc
      subst h0; simp [processPunctAux]
    · simp [processPunctAux, hc, nonSpace_append, hind]
  | cons line rest ih =>
    intro cur
    by_cases hb : (strip line).isEmpty = true
    · have h0 : nonSpace line = [] :=
        nonSpace_of_strip_eq_nil (List.isEmpty_iff.mp hb)
      simp [processPunctAux, hb, ih, nonSpace_append, h0]
    · by_cases ht : endsWithTerm (strip line) = true
      · simp [processPunctAux, hb, ht, ih, nonSpace_append,
          nonSpace_strip, hind]
      · simp [processPunctAux, hb, ht, ih, nonSpace_append, nonSpace_strip]

/-- The indentation branch of `smart` mode runs exactly the `blank`-mode
buffering algorithm: the two loops (src/txt_to_epub.py:193-223 and 235-263)
flush and refill the buffer identically. -/
theorem smartIndentAux_eq_blankAux (ind : List Char) :
    ∀ (ls cur : List (List Char)),
    processSmartIndentAux ind cur ls = processBlankAux ind cur ls := by
  intro ls
  induction ls with
  | nil => intro cur; rfl
  | cons line rest ih =>
    intro cur
    by_cases hb : (strip line).isEmpty = true
    · simp [processSmartIndentAux, processBlankAux, hb, ih]
    · by_cases hi : has_indent line = true
      · by_cases hc : cur.isEmpty = true
        · have h1 : cur = [] := List.isEmpty_iff.mp hc
          subst h1
          simp [processSmartIndentAux, processBlankAux, hb, hi, ih]
        · simp [processSmartIndentAux, processBlankAux, hb, hi, hc, ih]
      · simp [processSmartIndentAux, processBlankAux, hb, hi, ih]

/-- Character preservation for every valid mode: segmentation neither gains
nor loses non-whitespace text of the lines of the chapter. -/
theorem process_paragraphs_chars (mode : String)
    (hmode : mode = "line" ∨ mode = "blank" ∨ mode = "smart")
    (ls : List (List Char)) (fi : Bool) :
    nonSpace (process_paragraphs ls mode fi).flatten = nonSpace ls.flatten := by
  rcases hmode with rfl | rfl | rfl
  · rw [process_paragraphs_line_def]
    exact lineMode_chars _ (nonSpace_indentStr fi) ls
  · rw [process_paragraphs_blank_def]
    simpa using blankAux_chars _ (nonSpace_indentStr fi) ls []
  · rw [process_paragraphs_smart_def]
    by_cases h1 : hasIndentedLines ls = true
    · simp only [h1, if_true]
      rw [smartIndentAux_eq_blankAux]
      simpa using blankAux_chars _ (nonSpace_indentStr fi) ls []
    · by_cases h2 : hasBlankLines ls = true
      · simp only [h1, h2, if_false, if_true, Bool.not_eq_true]
        simpa [h1] using blankAux_chars _ (nonSpace_indentStr fi) ls []
      · simp only [h1, h2, Bool.not_eq_true]
        simpa [h1, h2] using punctAux_chars _ (nonSpace_indentStr fi) ls []

/-! ### Character preservation through the chapter splitter -/

/-- All non-whitespace characters of all paragraphs of all chapters, in
order. -/
def allParasChars (cs : List (List Char × List (List Char))) : List Char :=
  nonSpace (cs.map Prod.snd).flatten.flatten

theorem allParasChars_append (a b : List (List Char × List (List Char))) :
    allParasChars (a ++ b) = allParasChars a ++ allParasChars b := by
  simp [allParasChars, nonSpace_append]

theorem flushChapter_chars (mode : String)
    (hmode : mode = "line" ∨ mode = "blank" ∨ mode = "smart")
    (fi : Bool) (title : List Char) (buf : List (List Char)) :
    allParasChars (flushChapter mode fi title buf) = nonSpace buf.flatten := by
  unfold flushChapter
  by_cases hb : buf.isEmpty = true
  · have h0 : buf = [] := List.isEmpty_iff.mp hb
    subst h0; simp [allParasChars]
  · by_cases hp : (process_paragraphs buf mode fi).isEmpty = true
    · have h1 : process_paragraphs buf mode fi = [] := List.isEmpty_iff.mp hp
      have h2 := process_paragraphs_chars mode hmode buf fi
      rw [h1] at h2
      simp [hb, hp, allParasChars, ← h2]
    · simp [hb, hp, allParasChars, process_paragraphs_chars mode hmode buf fi]

theorem splitChaptersAux_chars (m : List Char → Bool) (mode : String)
    (hmode : mode = "line" ∨ mode = "blank" ∨ mode = "smart") (fi : Bool) :
    ∀ (ls : List (List Char)) (title : List Char) (buf : List (List Char)),
    allParasChars (splitChaptersAux m mode fi title buf ls) =
      nonSpace buf.flatten ++
        nonSpace ((ls.filter (fun l => !isHeading m l)).flatten) := by
  intro ls
  induction ls with
  | nil =>
    intro title buf
    simp [splitChaptersAux, flushChapter_chars mode hmode]
  | cons line rest ih =>
    intro title buf
    by_cases hb : (strip line).isEmpty = true
    · have h0 : nonSpace line = [] :=
        nonSpace_of_strip_eq_nil (List.isEmpty_iff.mp hb)
      simp [splitChaptersAux, hb, ih, isHeading, nonSpace_append, h0]
    · by_cases hm : m (strip line) = true
      · simp [splitChaptersAux, hb, hm, ih, isHeading, allParasChars_append,
          flushChapter_chars mode hmode, nonSpace_append]
      · simp [splitChaptersAux, hb, hm, ih, isHeading, nonSpace_append]

/-- C1: for every input, every heading pattern, every segmentation mode
(`line`, `blank`, `smart`) and both force-indent settings, the
non-whitespace characters of all paragraphs of all chapters, concatenated
in order, are exactly the non-whitespace characters of the non-heading
input lines (blank lines carry only whitespace): no text is gained or
lost, and only whitespace/indentation differs. -/
theorem c1_text_preserved (lines : List (List Char)) (m : List Char → Bool)
    (fi : Bool) :
    (allParasChars (txt_to_epub_chapters m "line" fi lines) =
      nonSpace ((lines.filter (fun l => !isHeading m l)).flatten)) ∧
    (allParasChars (txt_to_epub_chapters m "blank" fi lines) =
      nonSpace ((lines.filter (fun l => !isHeading m l)).flatten)) ∧
    (allParasChars (txt_to_epub_chapters m "smart" fi lines) =
      nonSpace ((lines.filter (fun l => !isHeading m l)).flatten)) := by
  refine ⟨?_, ?_, ?_⟩ <;>
    simpa using splitChaptersAux_chars m _ (by simp) fi lines "前言".data []

/-! ### C2: the smart-mode strategy decision -/

/-- C2: under `smart` mode the strategy is decided once per chapter in
priority order: with an indented non-blank line present the chapter runs
the indentation-buffering loop, which is exactly the `blank` mode buffering
algorithm (indented line: flush then start a new buffer with the
indentation stripped; blank line: flush only); with no indentation but a
blank line present the chapter delegates to `blank` mode; and in the
indentation loop a blank line acts purely as a flush trigger while an
indented line flushes and restarts the buffer. -/
theorem c2_smart_strategy (lines : List (List Char)) (fi : Bool) :
    (hasIndentedLines lines = true →
      process_paragraphs lines "smart" fi =
        processSmartIndentAux (indentStr fi) [] lines) ∧
    (hasIndentedLines lines = true →
      process_paragraphs lines "smart" fi =
        process_paragraphs lines "blank" fi) ∧
    (hasIndentedLines lines = false → hasBlankLines lines = true →
      process_paragraphs lines "smart" fi =
        process_paragraphs lines "blank" fi) ∧
    (∀ (ind : List Char) (cur : List (List Char)) (bl : List Char)
        (rest : List (List Char)), (strip bl).isEmpty = true → cur ≠ [] →
      processSmartIndentAux ind cur (bl :: rest) =
        (ind ++ cur.flatten) :: processSmartIndentAux ind [] rest) ∧
    (∀ (ind : List Char) (cur : List (List Char)) (l : List Char)
        (rest : List (List Char)),
        (strip l).isEmpty = false → has_indent l = true → cur ≠ [] →
      processSmartIndentAux ind cur (l :: rest) =
        (ind ++ cur.flatten) ::
          processSmartIndentAux ind [strip (remove_indent l)] rest) := by
  refine ⟨?_, ?_, ?_, ?_, ?_⟩
  · intro h
    rw [process_paragraphs_smart_def]
    simp [h]
  · intro h
    rw [process_paragraphs_smart_def, process_paragraphs_blank_def]
    simp [h, smartIndentAux_eq_blankAux]
  · intro h1 h2
    rw [process_paragraphs_smart_def, process_paragraphs_blank_def]
    simp [h1, h2]
  · intro ind cur bl rest hb hcur
    cases cur with
    | nil => exact absurd rfl hcur
    | cons a t => simp [processSmartIndentAux, hb]
  · intro ind cur l rest hs hi hcur
    cases cur with
    | nil => exact absurd rfl hcur
    | cons a t => simp [processSmartIndentAux, hs, hi]

theorem c2_smart_strategy_witness :
    (process_paragraphs [['　', '　', '甲'], ['乙']] "smart" false =
      processSmartIndentAux (indentStr false) [] [['　', '　', '甲'], ['乙']]) ∧
    (process_paragraphs [['　', '　', '甲'], ['乙']] "smart" false =
      process_paragraphs [['　', '　', '甲'], ['乙']] "blank" false) ∧
    (process_paragraphs [['甲'], []] "smart" false =
      process_paragraphs [['甲'], []] "blank" false) ∧
    (processSmartIndentAux [] [['甲']] [[' ']] =
      (([] : List Char) ++ [['甲']].flatten) :: processSmartIndentAux [] [] []) ∧
    (processSmartIndentAux [] [['甲']] [['　', '乙']] =
      (([] : List Char) ++ [['甲']].flatten) ::
        processSmartIndentAux [] [strip (remove_indent ['　', '乙'])] []) :=
  ⟨(c2_smart_strategy [['　', '　', '甲'], ['乙']] false).1 (by decide),
   (c2_smart_strategy [['　', '　', '甲'], ['乙']] false).2.1 (by decide),
   (c2_smart_strategy [['甲'], []] false).2.2.1 (by decide) (by decide),
   (c2_smart_strategy [] false).2.2.2.1 [] [['甲']] [' '] [] (by decide)
     (by decide),
   (c2_smart_strategy [] false).2.2.2.2 [] [['甲']] ['　', '乙'] [] (by decide)
     (by decide) (by decide)⟩

/-! ### C3: the blank-mode paragraph count -/

/-- Spec-side definition for the counting clause: the maximal runs of
consecutive non-blank lines (a line is blank when it trims to nothing),
holding the original lines. -/
def specNonBlankRunsAux (cur : List (List Char)) :
    List (List Char) → List (List (List Char))
  | [] => if cur.isEmpty then [] else [cur]
  | l :: rest =>
    if (strip l).isEmpty then
      if cur.isEmpty then specNonBlankRunsAux cur rest
      else cur :: specNonBlankRunsAux [] rest
    else specNonBlankRunsAux (cur ++ [l]) rest

/-- The maximal blank-line-delimited non-blank runs of the input. -/
def specNonBlankRuns (ls : List (List Char)) : List (List (List Char)) :=
  specNonBlankRunsAux [] ls

/-- Spec-side predicted `blank`-mode paragraph count: one paragraph per run,
plus one extra paragraph for every indented line appearing mid-run (after
the first line of its run). -/
def specBlankParaCount (ls : List (List Char)) : Nat :=
  (specNonBlankRuns ls).length +
    ((specNonBlankRuns ls).map (fun r => (r.drop 1).countP has_indent)).sum

/-- The number of flushes the blank-mode loop performs, given whether the
buffer is currently non-empty. -/
def blankFlushCount : Bool → List (List Char) → Nat
  | b, [] => if b then 1 else 0
  | b, l :: rest =>
    if (strip l).isEmpty then (if b then 1 else 0) + blankFlushCount false rest
    else if has_indent l && b then 1 + blankFlushCount true rest
    else blankFlushCount true rest

@[simp] theorem isEmpty_append_singleton (l : List α) (x : α) :
    (l ++ [x]).isEmpty = false := by
  cases l <;> rfl

theorem processBlankAux_length (ind : List Char) :
    ∀ (ls cur : List (List Char)),
    (processBlankAux ind cur ls).length = blankFlushCount (!cur.isEmpty) ls := by
  intro ls
  induction ls with
  | nil =>
    intro cur
    by_cases hc : cur.isEmpty = true
    · simp [processBlankAux, blankFlushCount, hc]
    · simp [processBlankAux, blankFlushCount, hc]
  | cons line rest ih =>
    intro cur
    by_cases hb : (strip line).isEmpty = true
    · by_cases hc : cur.isEmpty = true
      · have h0 : cur = [] := List.isEmpty_iff.mp hc
        subst h0
        simp [processBlankAux, blankFlushCount, hb, ih]
      · simp [processBlankAux, blankFlushCount, hb, hc, ih]
        omega
    · by_cases hi : has_indent line = true
      · by_cases hc : cur.isEmpty = true
        · simp [processBlankAux, blankFlushCount, hb, hi, hc, ih]
        · simp [processBlankAux, blankFlushCount, hb, hi, hc, ih]
          omega
      · simp [processBlankAux, blankFlushCount, hb, hi, ih]

theorem specRunsAux_nonblank (cur : List (List Char)) (l : List Char)
    (rest : List (List Char)) (hb : ¬(strip l).isEmpty = true) :
    specNonBlankRunsAux cur (l :: rest) = specNonBlankRunsAux (cur ++ [l]) rest := by
  simp [specNonBlankRunsAux, hb]

theorem specRunsAux_blank_nil (l : List Char) (rest : List (List Char))
    (hb : (strip l).isEmpty = true) :
    specNonBlankRunsAux [] (l :: rest) = specNonBlankRunsAux [] rest := by
  simp [specNonBlankRunsAux, hb]

theorem specRunsAux_blank_cons (a : List Char) (t : List (List Char))
    (l : List Char) (rest : List (List Char)) (hb : (strip l).isEmpty = true) :
    specNonBlankRunsAux (a :: t) (l :: rest) =
      (a :: t) :: specNonBlankRunsAux [] rest := by
  simp [specNonBlankRunsAux, hb]

theorem blankFlushCount_blank (b : Bool) (l : List Char)
    (rest : List (List Char)) (hb : (strip l).isEmpty = true) :
    blankFlushCount b (l :: rest) =
      (if b then 1 else 0) + blankFlushCount false rest := by
  simp [blankFlushCount, hb]

theorem blankFlushCount_nonblank (b : Bool) (l : List Char)
    (rest : List (List Char)) (hb : ¬(strip l).isEmpty = true) :
    blankFlushCount b (l :: rest) =
      (if has_indent l && b then 1 else 0) + blankFlushCount true rest := by
  simp only [blankFlushCount, if_neg hb]
  split <;> omega

theorem specRuns_sum :
    ∀ (ls cur : List (List Char)),
    ((specNonBlankRunsAux cur ls).map
        (fun r => 1 + (r.drop 1).countP has_indent)).sum =
      blankFlushCount (!cur.isEmpty) ls + (cur.drop 1).countP has_indent := by
  intro ls
  induction ls with
  | nil =>
    intro cur
    cases cur with
    | nil => simp [specNonBlankRunsAux, blankFlushCount]
    | cons a t => simp [specNonBlankRunsAux, blankFlushCount, Nat.add_comm]
  | cons line rest ih =>
    intro cur
    by_cases hb : (strip line).isEmpty = true
    · cases cur with
      | nil =>
        have h1 := ih []
        simp only [List.isEmpty_nil, Bool.not_true, List.drop_nil,
          List.countP_nil, Nat.add_zero] at h1 ⊢
        rw [specRunsAux_blank_nil line rest hb,
          blankFlushCount_blank false line rest hb, h1]
        simp
      | cons a t =>
        have h1 := ih []
        simp only [List.isEmpty_nil, Bool.not_true, List.drop_nil,
          List.countP_nil, Nat.add_zero] at h1
        simp only [List.isEmpty_cons, Bool.not_false]
        rw [specRunsAux_blank_cons a t line rest hb,
          blankFlushCount_blank true line rest hb]
        simp only [List.map_cons, List.sum_cons, h1, List.drop_succ_cons,
          List.drop_zero]
        simp
        omega
    · cases cur with
      | nil =>
        rw [specRunsAux_nonblank [] line rest hb, ih,
          blankFlushCount_nonblank _ line rest hb]
        simp
      | cons a t =>
        rw [specRunsAux_nonblank (a :: t) line rest hb, ih,
          blankFlushCount_nonblank _ line rest hb]
        simp [List.countP_append, List.countP_cons]
        by_cases hi : has_indent line = true
        · simp [hi]
          omega
        · simp [hi]

/-- C3: in `blank` mode the paragraph count equals the number of maximal
blank-line-delimited non-blank runs plus the number of indented lines
appearing mid-run (lines accumulate into a buffer flushed on each blank
line, flushed-and-restarted on indented lines met with a non-empty buffer,
and flushed at end of input). -/
theorem c3_blank_count (lines : List (List Char)) (fi : Bool) :
    (process_paragraphs lines "blank" fi).length = specBlankParaCount lines := by
  rw [process_paragraphs_blank_def, processBlankAux_length]
  have h2 := specRuns_sum lines []
  have h3 : ∀ (L : List (List (List Char))),
      (L.map (fun r => 1 + (r.drop 1).countP has_indent)).sum =
        L.length + (L.map (fun r => (r.drop 1).countP has_indent)).sum := by
    intro L
    induction L with
    | nil => rfl
    | cons r t ihL => simp [ihL]; omega
  rw [h3] at h2
  simp only [List.isEmpty_nil, Bool.not_true, List.drop_nil,
    List.countP_nil, Nat.add_zero] at h2
  simpa [specBlankParaCount, specNonBlankRuns] using h2.symm

/-! ### C4: the punctuation fallback -/

/-- Spec-side definition: split a list into maximal segments,
cutting immediately after every element satisfying `p`; a last segment with
no satisfying element is kept. -/
def splitAfterAux (p : α → Bool) (cur : List α) : List α → List (List α)
  | [] => if cur.isEmpty then [] else [cur]
  | x :: rest =>
    if p x then (cur ++ [x]) :: splitAfterAux p [] rest
    else splitAfterAux p (cur ++ [x]) rest

/-- Spec-side definition of the punctuation fallback: trim every
line, cut after each line whose last character is a sentence terminator,
and concatenate each group into one paragraph (prefixed by the forced
indent marker when enabled). -/
def specPunctParas (lines : List (List Char)) (fi : Bool) : List (List Char) :=
  (splitAfterAux endsWithTerm [] (lines.map strip)).map
    (fun g => indentStr fi ++ g.flatten)

theorem punctAux_eq_splitAfter (ind : List Char) :
    ∀ (ls cur : List (List Char)), (∀ l ∈ ls, ¬(strip l).isEmpty = true) →
    processPunctAux ind cur ls =
      (splitAfterAux endsWithTerm cur (ls.map strip)).map
        (fun g => ind ++ g.flatten) := by
  intro ls
  induction ls with
  | nil =>
    intro cur _
    by_cases hc : cur.isEmpty = true
    · simp [processPunctAux, splitAfterAux, hc]
    · simp [processPunctAux, splitAfterAux, hc]
  | cons line rest ih =>
    intro cur hno
    have hb : ¬(strip line).isEmpty = true := hno line (List.mem_cons_self ..)
    have hrest : ∀ l ∈ rest, ¬(strip l).isEmpty = true :=
      fun l hl => hno l (List.mem_cons_of_mem _ hl)
    by_cases ht : endsWithTerm (strip line) = true
    · simp [processPunctAux, splitAfterAux, hb, ht, ih _ hrest]
    · simp [processPunctAux, splitAfterAux, hb, ht, ih _ hrest]

/-- C4: on a chapter with no indented non-blank line and no blank line,
`smart` mode performs punctuation-based segmentation: the trimmed lines are
grouped by cutting immediately after every line whose last character is a
sentence terminator, each group is concatenated into one paragraph, and a
trailing group with no terminator still becomes a final paragraph. -/
theorem c4_punct_fallback (lines : List (List Char)) (fi : Bool)
    (h1 : hasIndentedLines lines = false) (h2 : hasBlankLines lines = false) :
    process_paragraphs lines "smart" fi = specPunctParas lines fi := by
  rw [process_paragraphs_smart_def]
  simp only [h1, h2, Bool.false_eq_true, if_false]
  have hno : ∀ l ∈ lines, ¬(strip l).isEmpty = true := by
    intro l hl hcontra
    have : hasBlankLines lines = true := by
      simp only [hasBlankLines, List.any_eq_true]
      exact ⟨l, hl, hcontra⟩
    simp [this] at h2
  rw [punctAux_eq_splitAfter _ lines [] hno]
  rfl

theorem c4_punct_fallback_witness :
    hasIndentedLines [['甲', '。'], ['乙']] = false ∧
    hasBlankLines [['甲', '。'], ['乙']] = false ∧
    process_paragraphs [['甲', '。'], ['乙']] "smart" true =
      specPunctParas [['甲', '。'], ['乙']] true :=
  ⟨by decide, by decide,
   c4_punct_fallback [['甲', '。'], ['乙']] true (by decide) (by decide)⟩

/-! ### C5/C6: properties of the produced paragraph strings -/

/-- A well-formed paragraph string: non-empty with a non-whitespace first
character (every paragraph built without the forced indent marker has this
shape, since its first fragment is a trimmed non-blank line). -/
def GoodPara (p : List Char) : Prop :=
  ∃ c t, p = c :: t ∧ pyIsSpace c = false

theorem dropWhile_head_not (p : α → Bool) :
    ∀ (l : List α) (c : α) (cs : List α), l.dropWhile p = c :: cs → p c = false := by
  intro l
  induction l with
  | nil => intro c cs h; simp [List.dropWhile] at h
  | cons a t ih =>
    intro c cs h
    rw [List.dropWhile_cons] at h
    by_cases ha : p a = true
    · rw [if_pos ha] at h
      exact ih c cs h
    · rw [if_neg ha] at h
      injection h with h1 h2
      subst h1
      exact Bool.eq_false_iff.mpr ha

theorem dropWhile_append_last (p : α → Bool) (c : α) (hc : p c = false) :
    ∀ xs : List α, ∃ ys, (xs ++ [c]).dropWhile p = ys ++ [c] := by
  intro xs
  induction xs with
  | nil => exact ⟨[], by simp [List.dropWhile_cons, hc]⟩
  | cons x xt ih =>
    by_cases hx : p x = true
    · obtain ⟨ys, hy⟩ := ih
      exact ⟨ys, by simp [List.dropWhile_cons, hx, hy]⟩
    · exact ⟨x :: xt, by simp [List.dropWhile_cons, hx]⟩

theorem strip_good {l : List Char} (h : ¬(strip l).isEmpty = true) :
    GoodPara (strip l) := by
  have h2 : strip l ≠ [] := by simpa [List.isEmpty_iff] using h
  cases hm : l.dropWhile pyIsSpace with
  | nil =>
    exfalso
    apply h2
    unfold strip
    rw [hm]
    rfl
  | cons c cs =>
    have hc : pyIsSpace c = false := dropWhile_head_not pyIsSpace l c cs hm
    obtain ⟨ys, hy⟩ := dropWhile_append_last pyIsSpace c hc cs.reverse
    have h3 : strip l = c :: ys.reverse := by
      unfold strip
      rw [hm, List.reverse_cons, hy, List.reverse_append]
      simp
    rw [h3]
    exact ⟨c, ys.reverse, rfl, hc⟩

theorem GoodPara_flatten : ∀ (cur : List (List Char)), cur ≠ [] →
    (∀ f ∈ cur, GoodPara f) → GoodPara cur.flatten := by
  intro cur hne hall
  cases cur with
  | nil => exact absurd rfl hne
  | cons f r =>
    obtain ⟨c, t, hf, hc⟩ := hall f (by simp)
    exact ⟨c, t ++ r.flatten, by simp [hf], hc⟩

theorem blankAux_good :
    ∀ (ls cur : List (List Char)), (∀ f ∈ cur, GoodPara f) →
    ∀ p ∈ processBlankAux [] cur ls, GoodPara p := by
  intro ls
  induction ls with
  | nil =>
    intro cur hcur p hp
    by_cases hc : cur.isEmpty = true
    · simp [processBlankAux, hc] at hp
    · simp [processBlankAux, hc] at hp
      subst hp
      exact GoodPara_flatten cur (by simpa [List.isEmpty_iff] using hc) hcur
  | cons line rest ih =>
    intro cur hcur p hp
    by_cases hb : (strip line).isEmpty = true
    · by_cases hc : cur.isEmpty = true
      · simp only [processBlankAux, if_pos hb, if_pos hc] at hp
        exact ih cur hcur p hp
      · simp [processBlankAux, hb, hc] at hp
        rcases hp with rfl | hp
        · exact GoodPara_flatten cur (by simpa [List.isEmpty_iff] using hc) hcur
        · exact ih [] (by simp) p hp
    · by_cases hi : has_indent line = true
      · by_cases hc : cur.isEmpty = true
        · simp [processBlankAux, hb, hi, hc] at hp
          refine ih (cur ++ [strip (remove_indent line)]) ?_ p hp
          intro f hf
          rcases List.mem_append.mp hf with hf | hf
          · exact hcur f hf
          · simp at hf
            subst hf
            rw [strip_remove_indent]
            exact strip_good hb
        · simp [processBlankAux, hb, hi, hc] at hp
          rcases hp with rfl | hp
          · exact GoodPara_flatten cur (by simpa [List.isEmpty_iff] using hc) hcur
          · refine ih [strip (remove_indent line)] ?_ p hp
            intro f hf
            simp at hf
            subst hf
            rw [strip_remove_indent]
            exact strip_good hb
      · simp [processBlankAux, hb, hi] at hp
        refine ih (cur ++ [strip line]) ?_ p hp
        intro f hf
        rcases List.mem_append.mp hf with hf | hf
        · exact hcur f hf
        · simp at hf
          subst hf
          exact strip_good hb

theorem punctAux_good :
    ∀ (ls cur : List (List Char)), (∀ f ∈ cur, GoodPara f) →
    ∀ p ∈ processPunctAux [] cur ls, GoodPara p := by
  intro ls
  induction ls with
  | nil =>
    intro cur hcur p hp
    by_cases hc : cur.isEmpty = true
    · simp [processPunctAux, hc] at hp
    · simp [processPunctAux, hc] at hp
      subst hp
      exact GoodPara_flatten cur (by simpa [List.isEmpty_iff] using hc) hcur
  | cons line rest ih =>
    intro cur hcur p hp
    by_cases hb : (strip line).isEmpty = true
    · simp only [processPunctAux, if_pos hb] at hp
      exact ih cur hcur p hp
    · have hgood : ∀ f ∈ cur ++ [strip line], GoodPara f := by
        intro f hf
        rcases List.mem_append.mp hf with hf | hf
        · exact hcur f hf
        · simp at hf
          subst hf
          exact strip_good hb
      by_cases ht : endsWithTerm (strip line) = true
      · simp [processPunctAux, hb, ht] at hp
        rcases hp with rfl | hp
        · simpa using GoodPara_flatten (cur ++ [strip line]) (by simp) hgood
        · exact ih [] (by simp) p hp
      · simp [processPunctAux, hb, ht] at hp
        exact ih (cur ++ [strip line]) hgood p hp

/-- Every paragraph `smart` mode emits without the forced indent marker is
non-empty and begins with a non-whitespace character. -/
theorem smart_paras_good (lines : List (List Char)) :
    ∀ p ∈ process_paragraphs lines "smart" false, GoodPara p := by
  rw [process_paragraphs_smart_def]
  have hind : indentStr false = [] := rfl
  by_cases h1 : hasIndentedLines lines = true
  · simp only [h1, if_true, hind]
    rw [smartIndentAux_eq_blankAux]
    exact blankAux_good lines [] (by simp)
  · by_cases h2 : hasBlankLines lines = true
    · simp only [h1, h2, if_false, if_true, hind]
      simp only [Bool.not_eq_true] at h1
      simp [h1, h2]
      exact blankAux_good lines [] (by simp)
    · simp only [Bool.not_eq_true] at h1 h2
      simp only [h1, h2, hind]
      simp
      exact punctAux_good lines [] (by simp)

theorem GoodPara_not_indent {l : List Char} (h : GoodPara l) :
    has_indent l = false := by
  obtain ⟨c, t, rfl, hc⟩ := h
  have h1 : c ≠ '　' := by
    intro h
    subst h
    exact absurd hc (by decide)
  have h2 : c ≠ '\t' := by
    intro h
    subst h
    exact absurd hc (by decide)
  have h3 : c ≠ ' ' := by
    intro h
    subst h
    exact absurd hc (by decide)
  cases t with
  | nil => simp [has_indent, h1, h2]
  | cons c2 t2 => simp [has_indent, h1, h2, h3]

theorem GoodPara_not_blank {l : List Char} (h : GoodPara l) :
    (strip l).isEmpty = false := by
  obtain ⟨c, t, rfl, hc⟩ := h
  rw [Bool.eq_false_iff]
  intro hcontra
  have h0 : nonSpace (c :: t) = [] := nonSpace_of_strip_eq_nil (List.isEmpty_iff.mp hcontra)
  simp [nonSpace, List.filter_cons, hc] at h0

/-- C5 counterexample: on `["甲。", "乙！", "丙"]` the punctuation fallback
does NOT produce the two paragraphs `["甲。", "乙！丙"]` claimed by the
example in the spec: `乙！` ends in a sentence terminator, so it is flushed as
its own paragraph. -/
theorem c5_example_counterexample :
    process_paragraphs [['甲', '。'], ['乙', '！'], ['丙']] "smart" false ≠
      [['甲', '。'], ['乙', '！', '丙']] := by
  decide

/-- C5 amended: with mode `smart` and input `["甲。", "乙！", "丙"]` (no
blanks, no indentation) the punctuation fallback produces exactly the three
paragraphs `["甲。", "乙！", "丙"]`: each line ending in a terminator is
flushed immediately, and only the last line, having no terminator, folds
into the trailing buffer flushed at the end (with force-indent each
paragraph additionally carries the fixed `　　` marker). -/
theorem c5_example_actual :
    process_paragraphs [['甲', '。'], ['乙', '！'], ['丙']] "smart" false =
      [['甲', '。'], ['乙', '！'], ['丙']] ∧
    process_paragraphs [['甲', '。'], ['乙', '！'], ['丙']] "smart" true =
      [['　', '　', '甲', '。'], ['　', '　', '乙', '！'], ['　', '　', '丙']] := by
  exact ⟨by decide, by decide⟩

/-- C6 counterexample: with force-indent enabled (the default), every
emitted paragraph starts with the full-width indent marker, so re-running
`smart` segmentation on the produced paragraph strings selects the
indentation branch, not the punctuation fallback: the re-run input contains
entries classified as indented. -/
theorem c6_counterexample :
    process_paragraphs [['甲', '。']] "smart" true = [['　', '　', '甲', '。']] ∧
    hasIndentedLines (process_paragraphs [['甲', '。']] "smart" true) = true := by
  exact ⟨by decide, by decide⟩

/-- C6 amended: with force-indent disabled, the paragraph strings produced
by `smart` segmentation contain no blank entries and no entries classified
as indented, so re-running `smart` segmentation on them (with either
force-indent setting) selects the punctuation-fallback branch rather than
the indentation branch or the blank-line branch. -/
theorem c6_smart_idempotent_selection (lines : List (List Char)) :
    hasIndentedLines (process_paragraphs lines "smart" false) = false ∧
    hasBlankLines (process_paragraphs lines "smart" false) = false ∧
    ∀ fi2 : Bool,
      process_paragraphs (process_paragraphs lines "smart" false) "smart" fi2 =
        processPunctAux (indentStr fi2) []
          (process_paragraphs lines "smart" false) := by
  have hgood := smart_paras_good lines
  have h1 : hasIndentedLines (process_paragraphs lines "smart" false) = false := by
    apply Bool.eq_false_iff.mpr
    intro hcontra
    rw [hasIndentedLines, List.any_eq_true] at hcontra
    obtain ⟨l, hl, hpred⟩ := hcontra
    rw [GoodPara_not_indent (hgood l hl)] at hpred
    simp at hpred
  have h2 : hasBlankLines (process_paragraphs lines "smart" false) = false := by
    apply Bool.eq_false_iff.mpr
    intro hcontra
    rw [hasBlankLines, List.any_eq_true] at hcontra
    obtain ⟨l, hl, hpred⟩ := hcontra
    rw [GoodPara_not_blank (hgood l hl)] at hpred
    exact absurd hpred (by decide)
  refine ⟨h1, h2, ?_⟩
  intro fi2
  rw [process_paragraphs_smart_def]
  simp [h1, h2]

/-! ### C8/C9/C10: the chapter list -/

theorem flushChapter_snd (mode : String) (fi : Bool) (title : List Char)
    (buf : List (List Char)) :
    ∀ c ∈ flushChapter mode fi title buf, c.2 ≠ [] := by
  intro c hc
  unfold flushChapter at hc
  by_cases hb : buf.isEmpty = true
  · simp [hb] at hc
  · by_cases hp : (process_paragraphs buf mode fi).isEmpty = true
    · simp [hb, hp] at hc
    · simp [hb, hp] at hc
      subst hc
      simpa [List.isEmpty_iff] using hp

theorem splitChaptersAux_no_empty (m : List Char → Bool) (mode : String)
    (fi : Bool) :
    ∀ (ls : List (List Char)) (title : List Char) (buf : List (List Char)),
    ∀ c ∈ splitChaptersAux m mode fi title buf ls, c.2 ≠ [] := by
  intro ls
  induction ls with
  | nil =>
    intro title buf c hc
    exact flushChapter_snd mode fi title buf c hc
  | cons line rest ih =>
    intro title buf c hc
    by_cases hb : (strip line).isEmpty = true
    · simp only [splitChaptersAux, if_pos hb] at hc
      exact ih title (buf ++ [[]]) c hc
    · by_cases hm : m (strip line) = true
      · simp only [splitChaptersAux, if_neg hb, if_pos hm] at hc
        rcases List.mem_append.mp hc with hc | hc
        · exact flushChapter_snd mode fi title buf c hc
        · exact ih (strip line) [] c hc
      · simp only [splitChaptersAux, if_neg hb, if_neg hm] at hc
        exact ih title (buf ++ [line]) c hc

/-- C8: a chapter whose collected line buffer is empty, or whose
segmentation produces no paragraphs, never appears in the output chapter
list — every emitted chapter carries a non-empty paragraph list (the model
is a total function: nothing is raised, the chapter is silently dropped). -/
theorem c8_empty_chapters_dropped (lines : List (List Char))
    (m : List Char → Bool) (mode : String) (fi : Bool) :
    ∀ c ∈ txt_to_epub_chapters m mode fi lines, c.2 ≠ [] :=
  splitChaptersAux_no_empty m mode fi lines "前言".data []

theorem c8_empty_chapters_dropped_witness :
    (("前言".data, [['甲']]) : List Char × List (List Char)).2 ≠ [] :=
  c8_empty_chapters_dropped [['甲']] (fun _ => false) "line" false
    ("前言".data, [['甲']]) (by decide)

/-- The line buffer the splitter collects for a document in which no line
is a heading: a blank line is kept as an empty placeholder
(src/txt_to_epub.py:298-299), any other line is kept as is
(src/txt_to_epub.py:316-317). -/
def blankedLines (lines : List (List Char)) : List (List Char) :=
  lines.map (fun l => if (strip l).isEmpty then [] else l)

theorem process_paragraphs_nil (mode : String) (fi : Bool) :
    process_paragraphs [] mode fi = [] := by
  by_cases h1 : mode = "line"
  · subst h1; rfl
  · by_cases h2 : mode = "blank"
    · subst h2; rfl
    · by_cases h3 : mode = "smart"
      · subst h3; rfl
      · exact process_paragraphs_other_def [] mode fi h1 h2 h3

theorem splitChaptersAux_no_heading (m : List Char → Bool) (mode : String)
    (fi : Bool) :
    ∀ (ls : List (List Char)) (title : List Char) (buf : List (List Char)),
    (∀ l ∈ ls, isHeading m l = false) →
    splitChaptersAux m mode fi title buf ls =
      flushChapter mode fi title (buf ++ blankedLines ls) := by
  intro ls
  induction ls with
  | nil =>
    intro title buf _
    simp [splitChaptersAux, blankedLines]
  | cons line rest ih =>
    intro title buf hno
    have hrest : ∀ l ∈ rest, isHeading m l = false :=
      fun l hl => hno l (List.mem_cons_of_mem _ hl)
    by_cases hb : (strip line).isEmpty = true
    · have hb2 : strip line = [] := List.isEmpty_iff.mp hb
      simp only [splitChaptersAux, if_pos hb]
      rw [ih title (buf ++ [[]]) hrest]
      simp [blankedLines, hb2]
    · have hb2 : ¬strip line = [] := by simpa [List.isEmpty_iff] using hb
      have hm : ¬m (strip line) = true := by
        intro hm
        have := hno line (List.mem_cons_self ..)
        simp [isHeading, hb, hm] at this
      simp only [splitChaptersAux, if_neg hb, if_neg hm]
      rw [ih title (buf ++ [line]) hrest]
      simp [blankedLines, hb2]

/-- C9 counterexample: a whitespace-only document with a never-matching
heading pattern yields ZERO chapters, not the single preface chapter the
claim promises for every input. -/
theorem c9_counterexample :
    (∀ l ∈ [([] : List Char)], isHeading (fun _ => false) l = false) ∧
    txt_to_epub_chapters (fun _ => false) "smart" true [[]] = [] := by
  exact ⟨by decide, by decide⟩

/-- C9 amended: when no trimmed line matches the heading pattern, the whole
document is collected into the single preface buffer, so the chapter list
is exactly the finalisation of that buffer under the fixed label `前言`:
exactly one chapter `(前言, paragraphs)` whenever segmentation of the
buffered document yields paragraphs, and zero chapters otherwise (e.g. for
a whitespace-only document); no error is raised either way (the model is
total). -/
theorem c9_no_heading_collapse (lines : List (List Char))
    (m : List Char → Bool) (mode : String) (fi : Bool)
    (h : ∀ l ∈ lines, isHeading m l = false) :
    txt_to_epub_chapters m mode fi lines =
      flushChapter mode fi "前言".data (blankedLines lines) ∧
    (process_paragraphs (blankedLines lines) mode fi ≠ [] →
      txt_to_epub_chapters m mode fi lines =
        [("前言".data, process_paragraphs (blankedLines lines) mode fi)]) ∧
    (txt_to_epub_chapters m mode fi lines = [] ∨
      ∃ ps, txt_to_epub_chapters m mode fi lines = [("前言".data, ps)]) := by
  have h1 : txt_to_epub_chapters m mode fi lines =
      flushChapter mode fi "前言".data (blankedLines lines) := by
    unfold txt_to_epub_chapters
    simpa using splitChaptersAux_no_heading m mode fi lines "前言".data [] h
  refine ⟨h1, ?_, ?_⟩
  · intro hcontent
    have hbuf : blankedLines lines ≠ [] := by
      intro hnil
      rw [hnil, process_paragraphs_nil] at hcontent
      exact hcontent rfl
    have hb : ¬(blankedLines lines).isEmpty = true := by
      simpa [List.isEmpty_iff] using hbuf
    have hp : ¬(process_paragraphs (blankedLines lines) mode fi).isEmpty = true := by
      simpa [List.isEmpty_iff] using hcontent
    rw [h1]
    simp [flushChapter, hb, hp]
  · rw [h1]
    unfold flushChapter
    by_cases hb : (blankedLines lines).isEmpty = true
    · simp [hb]
    · by_cases hp : (process_paragraphs (blankedLines lines) mode fi).isEmpty = true
      · simp [hb, hp]
      · exact Or.inr ⟨process_paragraphs (blankedLines lines) mode fi,
          by simp [hb, hp]⟩

theorem c9_no_heading_collapse_witness :
    (∀ l ∈ [['好']], isHeading (fun _ => false) l = false) ∧
    process_paragraphs (blankedLines [['好']]) "smart" true ≠ [] ∧
    txt_to_epub_chapters (fun _ => false) "smart" true [['好']] =
      [("前言".data, process_paragraphs (blankedLines [['好']]) "smart" true)] :=
  ⟨by decide, by decide,
   (c9_no_heading_collapse [['好']] (fun _ => false) "smart" true (by decide)).2.1
     (by decide)⟩

theorem flushChapter_of_empty_mode (mode : String) (fi : Bool)
    (h : ∀ ls, process_paragraphs ls mode fi = []) (title : List Char)
    (buf : List (List Char)) : flushChapter mode fi title buf = [] := by
  unfold flushChapter
  by_cases hb : buf.isEmpty = true
  · simp [hb]
  · simp [hb, h buf]

/-- C10: invoking the converter with a `paragraph_mode` other than `line`,
`blank` or `smart` makes `process_paragraphs` return the empty paragraph
list for every chapter, so every chapter is dropped and the produced book
has zero chapters; no error is raised (the model is total). -/
theorem c10_unknown_mode (lines : List (List Char)) (m : List Char → Bool)
    (mode : String) (fi : Bool) (h1 : mode ≠ "line") (h2 : mode ≠ "blank")
    (h3 : mode ≠ "smart") :
    (∀ ls, process_paragraphs ls mode fi = []) ∧
      txt_to_epub_chapters m mode fi lines = [] := by
  have hp : ∀ ls, process_paragraphs ls mode fi = [] :=
    fun ls => process_paragraphs_other_def ls mode fi h1 h2 h3
  refine ⟨hp, ?_⟩
  unfold txt_to_epub_chapters
  have haux : ∀ (ls : List (List Char)) (title : List Char)
      (buf : List (List Char)), splitChaptersAux m mode fi title buf ls = [] := by
    intro ls
    induction ls with
    | nil => intro title buf; exact flushChapter_of_empty_mode mode fi hp title buf
    | cons line rest ih =>
      intro title buf
      by_cases hb : (strip line).isEmpty = true
      · simp only [splitChaptersAux, if_pos hb]
        exact ih title (buf ++ [[]])
      · by_cases hm : m (strip line) = true
        · simp only [splitChaptersAux, if_neg hb, if_pos hm]
          rw [flushChapter_of_empty_mode mode fi hp title buf, ih (strip line) []]
          rfl
        · simp only [splitChaptersAux, if_neg hb, if_neg hm]
          exact ih title (buf ++ [line])
  exact haux lines "前言".data []

theorem c10_unknown_mode_witness :
    (∀ ls, process_paragraphs ls "markdown" true = []) ∧
      txt_to_epub_chapters (fun _ => true) "markdown" true [['甲']] = [] :=
  c10_unknown_mode [['甲']] (fun _ => true) "markdown" true (by decide)
    (by decide) (by decide)

/-! ### C7: structural invariants of the chapter list -/

theorem strip_ne_of_not_blank {l : List Char} (hb : ¬(strip l).isEmpty = true) :
    strip l ≠ [] := by
  simpa [List.isEmpty_iff] using hb

theorem flatten_ne_nil : ∀ (cur : List (List Char)), cur ≠ [] →
    (∀ f ∈ cur, f ≠ []) → cur.flatten ≠ [] := by
  intro cur hne hall
  cases cur with
  | nil => exact absurd rfl hne
  | cons f r =>
    have hf : f ≠ [] := hall f (by simp)
    cases f with
    | nil => exact absurd rfl hf
    | cons c t => simp

theorem para_ne_nil {ind x : List Char} (hx : x ≠ []) : ind ++ x ≠ [] :=
  fun hc => hx (List.append_eq_nil.mp hc).2

theorem lineMode_ne (ind : List Char) :
    ∀ ls, ∀ p ∈ processLineMode ind ls, p ≠ [] := by
  intro ls
  induction ls with
  | nil => intro p hp; simp [processLineMode] at hp
  | cons line rest ih =>
    intro p hp
    by_cases hb : (strip line).isEmpty = true
    · simp only [processLineMode, if_pos hb] at hp
      exact ih p hp
    · by_cases hi : has_indent line = true
      · simp only [processLineMode, if_neg hb, if_pos hi, List.mem_cons] at hp
        rcases hp with rfl | hp
        · rw [strip_remove_indent]
          exact para_ne_nil (strip_ne_of_not_blank hb)
        · exact ih p hp
      · simp only [processLineMode, if_neg hb, if_neg hi, List.mem_cons] at hp
        rcases hp with rfl | hp
        · exact para_ne_nil (strip_ne_of_not_blank hb)
        · exact ih p hp

theorem blankAux_ne (ind : List Char) :
    ∀ (ls cur : List (List Char)), (∀ f ∈ cur, f ≠ []) →
    ∀ p ∈ processBlankAux ind cur ls, p ≠ [] := by
  intro ls
  induction ls with
  | nil =>
    intro cur hcur p hp
    by_cases hc : cur.isEmpty = true
    · simp [processBlankAux, hc] at hp
    · simp [processBlankAux, hc] at hp
      subst hp
      exact para_ne_nil
        (flatten_ne_nil cur (by simpa [List.isEmpty_iff] using hc) hcur)
  | cons line rest ih =>
    intro cur hcur p hp
    by_cases hb : (strip line).isEmpty = true
    · by_cases hc : cur.isEmpty = true
      · simp only [processBlankAux, if_pos hb, if_pos hc] at hp
        exact ih cur hcur p hp
      · simp only [processBlankAux, if_pos hb, if_neg hc, List.mem_cons] at hp
        rcases hp with rfl | hp
        · exact para_ne_nil
            (flatten_ne_nil cur (by simpa [List.isEmpty_iff] using hc) hcur)
        · exact ih [] (by simp) p hp
    · have hfrag : ∀ f ∈ [strip (remove_indent line)], f ≠ [] := by
        intro f hf
        simp at hf
        subst hf
        rw [strip_remove_indent]
        exact strip_ne_of_not_blank hb
      by_cases hi : has_indent line = true
      · by_cases hc : cur.isEmpty = true
        · simp [processBlankAux, hb, hi, hc] at hp
          refine ih (cur ++ [strip (remove_indent line)]) ?_ p hp
          intro f hf
          rcases List.mem_append.mp hf with hf | hf
          · exact hcur f hf
          · exact hfrag f hf
        · simp [processBlankAux, hb, hi, hc] at hp
          rcases hp with rfl | hp
          · exact para_ne_nil
              (flatten_ne_nil cur (by simpa [List.isEmpty_iff] using hc) hcur)
          · exact ih [strip (remove_indent line)] hfrag p hp
      · simp [processBlankAux, hb, hi] at hp
        refine ih (cur ++ [strip line]) ?_ p hp
        intro f hf
        rcases List.mem_append.mp hf with hf | hf
        · exact hcur f hf
        · simp at hf
          subst hf
          exact strip_ne_of_not_blank hb

theorem punctAux_ne (ind : List Char) :
    ∀ (ls cur : List (List Char)), (∀ f ∈ cur, f ≠ []) →
    ∀ p ∈ processPunctAux ind cur ls, p ≠ [] := by
  intro ls
  induction ls with
  | nil =>
    intro cur hcur p hp
    by_cases hc : cur.isEmpty = true
    · simp [processPunctAux, hc] at hp
    · simp [processPunctAux, hc] at hp
      subst hp
      exact para_ne_nil
        (flatten_ne_nil cur (by simpa [List.isEmpty_iff] using hc) hcur)
  | cons line rest ih =>
    intro cur hcur p hp
    by_cases hb : (strip line).isEmpty = true
    · simp only [processPunctAux, if_pos hb] at hp
      exact ih cur hcur p hp
    · have hgood : ∀ f ∈ cur ++ [strip line], f ≠ [] := by
        intro f hf
        rcases List.mem_append.mp hf with hf | hf
        · exact hcur f hf
        · simp at hf
          subst hf
          exact strip_ne_of_not_blank hb
      by_cases ht : endsWithTerm (strip line) = true
      · simp [processPunctAux, hb, ht] at hp
        rcases hp with rfl | hp
        · have h0 := @para_ne_nil ind _
            (flatten_ne_nil (cur ++ [strip line]) (by simp) hgood)
          simpa using h0
        · exact ih [] (by simp) p hp
      · simp [processPunctAux, hb, ht] at hp
        exact ih (cur ++ [strip line]) hgood p hp

/-- No mode ever emits an empty paragraph. -/
theorem process_paragraphs_ne (ls : List (List Char)) (mode : String)
    (fi : Bool) : ∀ p ∈ process_paragraphs ls mode fi, p ≠ [] := by
  by_cases h1 : mode = "line"
  · subst h1
    rw [process_paragraphs_line_def]
    exact lineMode_ne _ ls
  · by_cases h2 : mode = "blank"
    · subst h2
      rw [process_paragraphs_blank_def]
      exact blankAux_ne _ ls [] (by simp)
    · by_cases h3 : mode = "smart"
      · subst h3
        rw [process_paragraphs_smart_def]
        by_cases hI : hasIndentedLines ls = true
        · simp only [hI, if_true]
          rw [smartIndentAux_eq_blankAux]
          exact blankAux_ne _ ls [] (by simp)
        · by_cases hB : hasBlankLines ls = true
          · simp only [hI, hB, if_false, if_true, Bool.not_eq_true] at hI ⊢
            simp [hI]
            exact blankAux_ne _ ls [] (by simp)
          · simp only [Bool.not_eq_true] at hI hB
            simp only [hI, hB]
            simp
            exact punctAux_ne _ ls [] (by simp)
      · rw [process_paragraphs_other_def ls mode fi h1 h2 h3]
        intro p hp
        simp at hp

theorem flushChapter_mem_eq (mode : String) (fi : Bool) (title : List Char)
    (buf : List (List Char)) :
    ∀ c ∈ flushChapter mode fi title buf,
      c = (title, process_paragraphs buf mode fi) := by
  intro c hc
  unfold flushChapter at hc
  by_cases hb : buf.isEmpty = true
  · simp [hb] at hc
  · by_cases hp : (process_paragraphs buf mode fi).isEmpty = true
    · simp [hb, hp] at hc
    · simp [hb, hp] at hc
      exact hc

theorem splitChaptersAux_paras_ne (m : List Char → Bool) (mode : String)
    (fi : Bool) :
    ∀ (ls : List (List Char)) (title : List Char) (buf : List (List Char)),
    ∀ c ∈ splitChaptersAux m mode fi title buf ls, ∀ p ∈ c.2, p ≠ [] := by
  intro ls
  induction ls with
  | nil =>
    intro title buf c hc p hp
    have h0 := flushChapter_mem_eq mode fi title buf c hc
    subst h0
    exact process_paragraphs_ne buf mode fi p hp
  | cons line rest ih =>
    intro title buf c hc
    by_cases hb : (strip line).isEmpty = true
    · simp only [splitChaptersAux, if_pos hb] at hc
      exact ih title (buf ++ [[]]) c hc
    · by_cases hm : m (strip line) = true
      · simp only [splitChaptersAux, if_neg hb, if_pos hm] at hc
        rcases List.mem_append.mp hc with hc | hc
        · have h0 := flushChapter_mem_eq mode fi title buf c hc
          subst h0
          exact process_paragraphs_ne buf mode fi
        · exact ih (strip line) [] c hc
      · simp only [splitChaptersAux, if_neg hb, if_neg hm] at hc
        exact ih title (buf ++ [line]) c hc

theorem flushChapter_fst (mode : String) (fi : Bool) (title : List Char)
    (buf : List (List Char)) :
    (flushChapter mode fi title buf).map Prod.fst = [] ∨
    (flushChapter mode fi title buf).map Prod.fst = [title] := by
  unfold flushChapter
  by_cases hb : buf.isEmpty = true
  · simp [hb]
  · by_cases hp : (process_paragraphs buf mode fi).isEmpty = true
    · simp [hb, hp]
    · simp [hb, hp]

theorem splitChaptersAux_titles (m : List Char → Bool) (mode : String)
    (fi : Bool) :
    ∀ (ls : List (List Char)) (title : List Char) (buf : List (List Char)),
    List.Sublist ((splitChaptersAux m mode fi title buf ls).map Prod.fst)
      (title :: (ls.filter (isHeading m)).map strip) := by
  intro ls
  induction ls with
  | nil =>
    intro title buf
    rcases flushChapter_fst mode fi title buf with h | h
    · simp only [splitChaptersAux, h]
      exact List.nil_sublist _
    · simp only [splitChaptersAux, h, List.filter_nil, List.map_nil]
      exact List.Sublist.refl _
  | cons line rest ih =>
    intro title buf
    by_cases hb : (strip line).isEmpty = true
    · have hH : isHeading m line = false := by simp [isHeading, hb]
      simp only [splitChaptersAux, if_pos hb, List.filter_cons, hH,
        Bool.false_eq_true, if_false]
      exact ih title (buf ++ [[]])
    · by_cases hm : m (strip line) = true
      · have hH : isHeading m line = true := by simp [isHeading, hb, hm]
        simp only [splitChaptersAux, if_neg hb, if_pos hm, List.map_append,
          List.filter_cons, hH, if_true, List.map_cons]
        rcases flushChapter_fst mode fi title buf with h | h
        · rw [h, List.nil_append]
          exact (ih (strip line) []).cons _
        · rw [h, List.singleton_append]
          exact (ih (strip line) []).cons₂ _
      · have hH : isHeading m line = false := by simp [isHeading, hm]
        simp only [splitChaptersAux, if_neg hb, if_neg hm, List.filter_cons,
          hH, Bool.false_eq_true, if_false]
        exact ih title (buf ++ [line])

/-- C7: the output chapters preserve source order and content: the title
sequence is an in-order subsequence of the preface label followed by the
trimmed heading lines in source order (so every title is either the fixed
preface label or a trimmed matching heading); no emitted paragraph is
empty; and for every valid mode the paragraph text, concatenated in
chapter/paragraph order, consists exactly of the non-heading input lines'
non-whitespace characters in source order — in particular heading lines
contribute nothing to any chapter's paragraph content. -/
theorem c7_chapter_invariants (lines : List (List Char))
    (m : List Char → Bool) (mode : String) (fi : Bool) :
    List.Sublist ((txt_to_epub_chapters m mode fi lines).map Prod.fst)
      ("前言".data :: (lines.filter (isHeading m)).map strip) ∧
    (∀ c ∈ txt_to_epub_chapters m mode fi lines, ∀ p ∈ c.2, p ≠ []) ∧
    ((mode = "line" ∨ mode = "blank" ∨ mode = "smart") →
      allParasChars (txt_to_epub_chapters m mode fi lines) =
        nonSpace ((lines.filter (fun l => !isHeading m l)).flatten)) :=
  ⟨splitChaptersAux_titles m mode fi lines "前言".data [],
   splitChaptersAux_paras_ne m mode fi lines "前言".data [],
   fun hmode => by
     simpa using splitChaptersAux_chars m mode hmode fi lines "前言".data []⟩

theorem c7_chapter_invariants_witness :
    List.Sublist
      ((txt_to_epub_chapters (fun _ => false) "blank" true [['甲']]).map Prod.fst)
      ("前言".data :: ([['甲']].filter (isHeading (fun _ => false))).map strip) ∧
    (['　', '　', '甲'] ≠ []) ∧
    allParasChars (txt_to_epub_chapters (fun _ => false) "blank" true [['甲']]) =
      nonSpace (([['甲']].filter
        (fun l => !isHeading (fun _ => false) l)).flatten) :=
  ⟨(c7_chapter_invariants [['甲']] (fun _ => false) "blank" true).1,
   (c7_chapter_invariants [['甲']] (fun _ => false) "blank" true).2.1
     ("前言".data, [['　', '　', '甲']]) (by decide) ['　', '　', '甲'] (by decide),
   (c7_chapter_invariants [['甲']] (fun _ => false) "blank" true).2.2
     (Or.inr (Or.inl rfl))⟩

end TxtToEpub
